import Mathlib

/-!
Verification of the storage engine of claude-run (src/storage.ts).

The engine reads append-only ".jsonl" session files and a history log.
We embed its pure core shallowly:

* file contents are byte lists (`List Nat`, newline = byte 10);
* JSON decoding (an external library call, `JSON.parse`) is an abstract
  decoding function `JsonDecode`, supplied as a parameter; a line that fails
  to decode models a line whose `JSON.parse` throws;
* the filesystem is passed explicitly: a resolved session file is
  `Option (List Nat)` (`none` = `findSessionFile` returned null), project
  directories are association lists from directory name to file listings;
* the asynchronous request-coalescing map (`dedupe`) is embedded as an
  explicit state machine over the registry of in-flight computations.
-/

namespace ClaudeRun

/-- The message type tag of a conversation record (`msg.type` in storage.ts).
Producer-defined tags other than user / assistant / summary are `other`. -/
inductive MsgType where
  | user : MsgType
  | assistant : MsgType
  | summary : MsgType
  | other : String → MsgType
deriving DecidableEq, Repr

/-- A parsed conversation record: the `type` discriminator plus an opaque
payload (the engine passes all other JSON fields through uninterpreted). -/
structure ConversationMessage where
  type : MsgType
  payload : Nat
deriving DecidableEq, Repr

/-- `msg.type === "user" || msg.type === "assistant"` in storage.ts. -/
def isUA (m : ConversationMessage) : Bool :=
  match m.type with
  | .user => true
  | .assistant => true
  | _ => false

/-- `msg.type === "summary"` in storage.ts. -/
def isSummary (m : ConversationMessage) : Bool :=
  match m.type with
  | .summary => true
  | _ => false

/-- Abstract embedding of `JSON.parse` on one line of bytes: `none` models a
throw (malformed / partially written line). -/
abbrev JsonDecode := List Nat → Option ConversationMessage

/-- ASCII whitespace bytes, standing for the characters `String.prototype.trim`
removes and that make a line falsy after trimming. -/
def isWSByte (b : Nat) : Bool :=
  b == 9 || b == 10 || b == 11 || b == 12 || b == 13 || b == 32

/-- A line is blank when every byte is whitespace, i.e. `line.trim()` is
falsy in the JavaScript source. -/
def isBlank (l : List Nat) : Bool :=
  l.all isWSByte

/-- Remove trailing whitespace bytes. -/
def trimRight (l : List Nat) : List Nat :=
  (l.reverse.dropWhile isWSByte).reverse

/-- Embedding of `String.prototype.trim`: strip leading and trailing
whitespace bytes. -/
def trimBytes (l : List Nat) : List Nat :=
  trimRight (l.dropWhile isWSByte)

/-- Embedding of `content.split("\n")`: every segment between newline bytes,
including empty segments and a trailing empty segment. -/
def splitNL : List Nat → List (List Nat)
  | [] => [[]]
  | b :: bs =>
    if b = 10 then [] :: splitNL bs
    else
      match splitNL bs with
      | [] => [[b]]
      | l :: ls => (b :: l) :: ls

/-- Embedding of the `readline` interface iterating a byte stream: the lines
between newline bytes, with no line emitted after a final trailing newline
(so `"a\n"` yields one line where `split` would yield two segments). -/
def rlLines : List Nat → List (List Nat)
  | [] => []
  | b :: bs =>
    if b = 10 then [] :: rlLines bs
    else
      match rlLines bs with
      | [] => [[b]]
      | l :: ls => (b :: l) :: ls

/-- Bytes the stream loop charges for a list of lines: each line's length
plus one newline byte (`Buffer.byteLength(line, "utf-8") + 1`). -/
def sumBytes (lines : List (List Nat)) : Nat :=
  lines.foldr (fun l acc => (l.length + 1) + acc) 0

/-- The body of the `for await (const line of rl)` loop of
`getConversationStream`: returns the collected user/assistant messages and
`bytesConsumed`.  A blank line is consumed without decoding; a decodable line
is consumed, and pushed when its type is user or assistant; a non-blank line
that fails to decode stops the loop, leaving its bytes unconsumed. -/
def processLines (p : JsonDecode) : List (List Nat) → List ConversationMessage × Nat
  | [] => ([], 0)
  | line :: rest =>
    let lineBytes := line.length + 1
    if isBlank line then
      let r := processLines p rest
      (r.1, lineBytes + r.2)
    else
      match p line with
      | none => ([], 0)
      | some msg =>
        let r := processLines p rest
        ((if isUA msg then msg :: r.1 else r.1), lineBytes + r.2)

/-- The result record of `getConversationStream`. -/
structure StreamResult where
  messages : List ConversationMessage
  nextOffset : Nat
deriving DecidableEq, Repr

/-- Embedding of `getConversationStream(sessionId, fromOffset)`.
`file` is the resolved session file (`none` when `findSessionFile` returns
null), `readErr` models the catch path where opening or reading the resolved
file throws (every such path returns `(empty, fromOffset)`). -/
def getConversationStream (p : JsonDecode) (file : Option (List Nat))
    (fromOffset : Nat) (readErr : Bool) : StreamResult :=
  match file with
  | none => { messages := [], nextOffset := 0 }
  | some content =>
    let fileSize := content.length
    if fileSize ≤ fromOffset then { messages := [], nextOffset := fromOffset }
    else if readErr then { messages := [], nextOffset := fromOffset }
    else
      let r := processLines p (rlLines (content.drop fromOffset))
      let actualOffset := fromOffset + r.2
      { messages := r.1
        nextOffset := if fileSize < actualOffset then fileSize else actualOffset }

/-- The loop of `getConversation`: `user`/`assistant` records are pushed to
the back, `summary` records are unshifted to the front, other and malformed
lines are skipped. -/
def convLoop (p : JsonDecode) : List (List Nat) → List ConversationMessage → List ConversationMessage
  | [], messages => messages
  | line :: rest, messages =>
    match p line with
    | none => convLoop p rest messages
    | some msg =>
      if isUA msg then convLoop p rest (messages ++ [msg])
      else if isSummary msg then convLoop p rest (msg :: messages)
      else convLoop p rest messages

/-- Embedding of `getConversation(sessionId)`: resolve the file, read it all,
`content.trim().split("\n").filter(Boolean)`, then run the parse loop.
`readErr` models the catch path where reading throws (returns the messages
collected so far, i.e. none). -/
def getConversation (p : JsonDecode) (file : Option (List Nat)) (readErr : Bool) :
    List ConversationMessage :=
  match file with
  | none => []
  | some content =>
    if readErr then []
    else convLoop p ((splitNL (trimBytes content)).filter (fun l => !l.isEmpty)) []

/-- The caller loop of claim C2: repeatedly call `getConversationStream`
feeding back `nextOffset`, concatenating the returned messages, until the
offset reaches end of file; `none` when the fuel runs out first (in
particular when the iteration stalls on a malformed line). -/
def streamAll (p : JsonDecode) (content : List Nat) : Nat → Nat → Option (List ConversationMessage)
  | 0, _ => none
  | fuel + 1, off =>
    if content.length ≤ off then some []
    else
      let r := getConversationStream p (some content) off false
      (streamAll p content fuel r.nextOffset).map (r.messages ++ ·)

/-- The user/assistant records extracted from a list of lines exactly as the
stream loop extracts them: blank lines skipped without decoding, each other
line decoded, user/assistant results kept in order. -/
def uaNB (p : JsonDecode) (lines : List (List Nat)) : List ConversationMessage :=
  lines.filterMap (fun l =>
    if isBlank l then none
    else match p l with
      | some m => if isUA m then some m else none
      | none => none)

/-- The user/assistant records extracted from a list of lines when every line
is decoded (the full-file reader's path, which trims and drops only empty
lines before decoding). -/
def uaOf (p : JsonDecode) (lines : List (List Nat)) : List ConversationMessage :=
  lines.filterMap (fun l =>
    match p l with
    | some m => if isUA m then some m else none
    | none => none)

/-- The index of the first line the stream loop refuses to consume: the first
non-blank line that fails to decode. -/
def firstBad (p : JsonDecode) : List (List Nat) → Option Nat
  | [] => none
  | line :: rest =>
    if isBlank line then (firstBad p rest).map (· + 1)
    else
      match p line with
      | some _ => (firstBad p rest).map (· + 1)
      | none => some 0

/-- Lines filtered to the non-blank ones and trimmed: the data that
determines which records a whitespace-insensitive decoder extracts. -/
def trimmedLines (lines : List (List Nat)) : List (List Nat) :=
  (lines.filter (fun l => !(isBlank l))).map trimBytes

/-- One record of the history log (`HistoryEntry` in the shared types):
`sessionId` is optional and may also be present but empty, which the source
treats as absent (`if (!sessionId)`). -/
structure HistoryEntry where
  sessionId : Option String
  project : String
  timestamp : Int
  display : String
deriving DecidableEq, Repr

/-- One entry of the session list `getSessions` returns. -/
structure Session where
  id : String
  display : String
  timestamp : Int
  project : String
  projectName : String
deriving DecidableEq, Repr

/-- Abstract embedding of `JSON.parse` on one line of the history log. -/
abbrev HistoryDecode := List Nat → Option HistoryEntry

/-- Embedding of `loadHistoryCache`: `none` for the file models the catch
path (missing or unreadable history log), which caches and returns an empty
list; otherwise the log is trimmed, split, empty lines dropped, and each
line parsed independently with malformed lines skipped. -/
def loadHistoryCache (ph : HistoryDecode) (file : Option (List Nat)) : List HistoryEntry :=
  match file with
  | none => []
  | some content =>
    ((splitNL (trimBytes content)).filter (fun l => !l.isEmpty)).filterMap ph

/-- Embedding of `encodeProjectPath`: replace every `/` and `.` with `-`. -/
def encodeProjectPath (path : String) : String :=
  path.map (fun c => if c = '/' ∨ c = '.' then '-' else c)

/-- Embedding of `getProjectName`: last non-empty `/`-segment of the project
path, or the whole path when there is none. -/
def getProjectName (projectPath : String) : String :=
  let parts := (projectPath.splitOn "/").filter (fun s => !s.isEmpty)
  match parts.getLast? with
  | some s => s
  | none => projectPath

/-- Embedding of `file.endsWith(".jsonl")`, written over the character list
so that concrete instances evaluate by kernel reduction. -/
def endsWithJsonl (s : String) : Bool :=
  s.data.reverse.take 6 == ['l', 'n', 'o', 's', 'j', '.']

/-- Association-list lookup, embedding `Map.get` / directory lookup by name. -/
def lookupKey (k : String) : List (String × α) → Option α
  | [] => none
  | (k', v) :: rest => if k' = k then some v else lookupKey k rest

/-- A project directory listing with modification times: directory name to
list of (file name, mtimeMs). -/
abbrev MTimeDirs := List (String × List (String × Int))

/-- The loop of `findSessionByTimestamp`: fold over the stat results keeping
the file with the strictly smallest `Math.abs(mtime - timestamp)` seen so
far (`closestTimeDiff` starts at Infinity, modelled by `none`). -/
def closestLoop (timestamp : Int) : Option String → Option Nat → List (String × Int) → Option String
  | closestFile, _, [] => closestFile
  | closestFile, closestTimeDiff, (file, mtime) :: rest =>
    let timeDiff := (mtime - timestamp).natAbs
    match closestTimeDiff with
    | none => closestLoop timestamp (some file) (some timeDiff) rest
    | some best =>
      if timeDiff < best then closestLoop timestamp (some file) (some timeDiff) rest
      else closestLoop timestamp closestFile (some best) rest

/-- Embedding of `findSessionByTimestamp(encodedProject, timestamp)`:
list the project directory (`none` = the catch path, directory missing or a
stat failed), keep the `.jsonl` files, pick the one whose mtime is closest
to the timestamp, and return its name minus the extension. -/
def findSessionByTimestamp (dirs : MTimeDirs) (encodedProject : String) (timestamp : Int) :
    Option String :=
  match lookupKey encodedProject dirs with
  | none => none
  | some files =>
    let jsonlFiles := files.filter (fun f => endsWithJsonl f.1)
    match closestLoop timestamp none none jsonlFiles with
    | some closestFile => some (closestFile.dropRight 6)
    | none => none

/-- The session metadata `getSessions` builds from a resolved id and its
history entry. -/
def mkSession (sid : String) (entry : HistoryEntry) : Session :=
  { id := sid
    display := entry.display
    timestamp := entry.timestamp
    project := entry.project
    projectName := getProjectName entry.project }

/-- The per-entry id resolution of the `getSessions` loop: take the entry's
own id unless it is absent or falsy (empty), else fall back to
`findSessionByTimestamp`; a falsy result resolves to nothing
(`if (!sessionId) ... continue`). -/
def resolveId (dirs : MTimeDirs) (entry : HistoryEntry) : Option String :=
  let sessionId :=
    match entry.sessionId with
    | none => findSessionByTimestamp dirs (encodeProjectPath entry.project) entry.timestamp
    | some sid =>
      if sid = "" then findSessionByTimestamp dirs (encodeProjectPath entry.project) entry.timestamp
      else some sid
  match sessionId with
  | none => none
  | some sid => if sid = "" then none else some sid

/-- The loop of `getSessions`: resolve each entry's id, skip entries whose
id is absent or already seen, and push the session built from the first
entry carrying each id. -/
def sessionsLoop (dirs : MTimeDirs) :
    List HistoryEntry → List Session → List String → List Session
  | [], sessions, _ => sessions
  | entry :: rest, sessions, seenIds =>
    match resolveId dirs entry with
    | none => sessionsLoop dirs rest sessions seenIds
    | some sid =>
      if seenIds.contains sid then sessionsLoop dirs rest sessions seenIds
      else sessionsLoop dirs rest (sessions ++ [mkSession sid entry]) (sid :: seenIds)

/-- Stable insertion of a session into a timestamp-descending list: the new
element goes before the first element whose timestamp is not larger.  This is
the insertion step of the stable sort below. -/
def insertDesc (s : Session) : List Session → List Session
  | [] => [s]
  | t :: rest =>
    if t.timestamp ≤ s.timestamp then s :: t :: rest
    else t :: insertDesc s rest

/-- Embedding of `sessions.sort((a, b) => b.timestamp - a.timestamp)`:
ECMAScript 2019 guarantees `Array.prototype.sort` is stable, and a stable
sort by a comparator is unique, so insertion sort embeds it exactly. -/
def sortDesc : List Session → List Session
  | [] => []
  | s :: rest => insertDesc s (sortDesc rest)

/-- Embedding of `getSessions()` given the parsed history entries and the
project directories: the dedup-and-resolve loop followed by the
timestamp-descending stable sort. -/
def getSessions (dirs : MTimeDirs) (entries : List HistoryEntry) : List Session :=
  sortDesc (sessionsLoop dirs entries [] [])

/-- The resolved session stream before deduplication: one session per entry
whose id resolves (resolution is stateless entry by entry). -/
def resolvedSessions (dirs : MTimeDirs) (entries : List HistoryEntry) : List Session :=
  entries.filterMap (fun e => (resolveId dirs e).map (fun sid => mkSession sid e))

/-- Keep the first session carrying each id, skipping ids in `seenIds`:
the specification-side description of the dedup loop. -/
def dedupFirst : List Session → List String → List Session
  | [], _ => []
  | s :: rest, seenIds =>
    if seenIds.contains s.id then dedupFirst rest seenIds
    else s :: dedupFirst rest (s.id :: seenIds)

/-- The first file of the list whose distance to the timestamp is minimal:
the specification-side description of the closest-mtime pick. -/
def firstMin (timestamp : Int) : List (String × Int) → Option (String × Int)
  | [] => none
  | f :: rest =>
    match firstMin timestamp rest with
    | none => some f
    | some g =>
      if (f.2 - timestamp).natAbs ≤ (g.2 - timestamp).natAbs then some f else some g

/-- The loop of `getProjects`: collect distinct truthy project strings in
first-seen order (a JavaScript `Set` preserves insertion order). -/
def projectsLoop : List HistoryEntry → List String → List String
  | [], acc => acc
  | entry :: rest, acc =>
    if entry.project = "" then projectsLoop rest acc
    else if acc.contains entry.project then projectsLoop rest acc
    else projectsLoop rest (acc ++ [entry.project])

/-- Stable insertion into a lexicographically ascending list of strings. -/
def insertStr (s : String) : List String → List String
  | [] => [s]
  | t :: rest => if s ≤ t then s :: t :: rest else t :: insertStr s rest

/-- Embedding of `[...projects].sort()`: sort ascending. -/
def sortStr : List String → List String
  | [] => []
  | s :: rest => insertStr s (sortStr rest)

/-- Embedding of `getProjects()` given the parsed history entries. -/
def getProjects (entries : List HistoryEntry) : List String :=
  sortStr (projectsLoop entries [])

/-- The File Index: sessionId to absolute path. -/
abbrev FileIndex := List (String × String)

/-- Embedding of `Map.set`: replace the entry with the key, or append the
binding when the key is absent. -/
def mapSet (k : String) (v : α) : List (String × α) → List (String × α)
  | [] => [(k, v)]
  | (k', v') :: rest => if k' = k then (k, v) :: rest else (k', v') :: mapSet k v rest

/-- Embedding of `addToFileIndex(sessionId, filePath)`. -/
def addToFileIndex (idx : FileIndex) (sessionId filePath : String) : FileIndex :=
  mapSet sessionId filePath idx

/-- Project directory listings by name only (no stat data). -/
abbrev NameDirs := List (String × List String)

/-- Embedding of `buildFileIndex`: scan every project directory and record
every `.jsonl` file under its name minus the extension.  Unreadable
directories are skipped, so `dirs` holds the readable listings. -/
def buildFileIndex (projectsDir : String) (dirs : NameDirs) (idx : FileIndex) : FileIndex :=
  dirs.foldl
    (fun acc d =>
      d.2.foldl
        (fun acc2 file =>
          if endsWithJsonl file then
            mapSet (file.dropRight 6) (projectsDir ++ "/" ++ d.1 ++ "/" ++ file) acc2
          else acc2)
        acc)
    idx

/-- Embedding of `findSessionFile(sessionId)`: return the indexed path if
present; otherwise scan every project directory for `<sessionId>.jsonl`,
cache the first hit into the index, and return it. -/
def findSessionFile (projectsDir : String) (dirs : NameDirs) (idx : FileIndex)
    (sessionId : String) : FileIndex × Option String :=
  match lookupKey sessionId idx with
  | some p => (idx, some p)
  | none =>
    let targetFile := sessionId ++ ".jsonl"
    let results := dirs.filterMap (fun d =>
      if d.2.contains targetFile then some (projectsDir ++ "/" ++ d.1 ++ "/" ++ targetFile)
      else none)
    match results.head? with
    | some filePath => (mapSet sessionId filePath idx, some filePath)
    | none => (idx, none)

/-- The single-flight registry of `dedupe`: the in-flight computations by
key, a counter supplying fresh computation identities, and the log of
computations actually started (the injected counting collaborator of the
spec's coalescing test). -/
structure SFState where
  registry : List (String × Nat)
  nextId : Nat
  started : List Nat
deriving DecidableEq, Repr

/-- A request arriving at `dedupe(key, fn)`: a key already in flight attaches
to the registered computation and starts nothing; a fresh key registers a
new computation, runs `fn`, and returns its identity. -/
def sfRequest (s : SFState) (k : String) : SFState × Nat :=
  match lookupKey k s.registry with
  | some id => (s, id)
  | none =>
    ({ registry := (k, s.nextId) :: s.registry
       nextId := s.nextId + 1
       started := s.started ++ [s.nextId] }, s.nextId)

/-- Remove every binding of a key, embedding `Map.delete` (the registry
holds at most one binding per key). -/
def removeKey (k : String) : List (String × α) → List (String × α)
  | [] => []
  | (k', v) :: rest => if k' = k then removeKey k rest else (k', v) :: removeKey k rest

/-- The computation under a key settling: the `finally` handler runs whether
the computation succeeded or failed (`_ok`), and deletes the key. -/
def sfSettle (s : SFState) (k : String) (_ok : Bool) : SFState :=
  { s with registry := removeKey k s.registry }

/-- A small concrete decoder for evaluating the theorems on concrete files:
byte 65 (`A`) decodes to an assistant record, byte 83 (`S`) to a summary
record, byte 85 (`U`) to a user record, anything else fails. -/
def exampleDecode : JsonDecode := fun l =>
  if l = [65] then some ⟨.assistant, 0⟩
  else if l = [83] then some ⟨.summary, 1⟩
  else if l = [85] then some ⟨.user, 2⟩
  else none

/-- A concrete decoder that decodes every non-blank line to a user record:
a decoder insensitive to surrounding whitespace, used to evaluate the
tail/full equivalence on a concrete file. -/
def uniformDecode : JsonDecode := fun l =>
  if isBlank l then none else some ⟨.user, 0⟩

/-! ### Characterizations of the stream reader's exit paths -/

/-- The early-return path of the stream reader: supplied offset at or past
end of file. -/
theorem gcs_eof (p : JsonDecode) (content : List Nat) (off : Nat) (err : Bool)
    (h1 : content.length ≤ off) :
    getConversationStream p (some content) off err = ⟨[], off⟩ := by
  unfold getConversationStream
  dsimp only
  rw [if_pos h1]

/-- The catch path of the stream reader: the read failed after the size
check. -/
theorem gcs_err (p : JsonDecode) (content : List Nat) (off : Nat)
    (h1 : ¬ content.length ≤ off) :
    getConversationStream p (some content) off true = ⟨[], off⟩ := by
  unfold getConversationStream
  dsimp only
  rw [if_neg h1]
  rfl

/-- The main path of the stream reader: run the line loop on the bytes from
the offset and clamp the advanced offset to the file size. -/
theorem gcs_main (p : JsonDecode) (content : List Nat) (off : Nat)
    (h1 : ¬ content.length ≤ off) :
    getConversationStream p (some content) off false =
      ⟨(processLines p (rlLines (content.drop off))).1,
        if content.length < off + (processLines p (rlLines (content.drop off))).2
        then content.length
        else off + (processLines p (rlLines (content.drop off))).2⟩ := by
  unfold getConversationStream
  dsimp only
  rw [if_neg h1]
  rfl

/-! ### Claim C1: stream offset bounds -/

/-- Claim C1 as stated is false at two of the exit paths it names: when the
session file cannot be resolved the call returns offset 0, below a supplied
offset of 1; and when the supplied offset 1 is past the end of an empty file
the call returns that offset, above the file size 0. -/
theorem c1_counterexample :
    ¬ (1 ≤ (getConversationStream (fun _ => none) none 1 false).nextOffset) ∧
    ¬ ((getConversationStream (fun _ => none) (some []) 1 false).nextOffset ≤ 0) := by
  decide

/-- Claim C1 (amended): whenever the session file resolves and the supplied
offset is at most the file size, the returned nextOffset lies between the
supplied offset and the file size, on every exit path of the call (offset at
end of file, read failure, and the main read loop). -/
theorem c1_stream_offset_bounds (p : JsonDecode) (content : List Nat)
    (fromOffset : Nat) (readErr : Bool) (h : fromOffset ≤ content.length) :
    fromOffset ≤ (getConversationStream p (some content) fromOffset readErr).nextOffset ∧
    (getConversationStream p (some content) fromOffset readErr).nextOffset ≤ content.length := by
  by_cases h1 : content.length ≤ fromOffset
  · rw [gcs_eof p content fromOffset readErr h1]
    exact ⟨Nat.le_refl _, h⟩
  · cases readErr with
    | false =>
      rw [gcs_main p content fromOffset h1]
      dsimp only
      constructor <;> (split <;> omega)
    | true =>
      rw [gcs_err p content fromOffset h1]
      exact ⟨Nat.le_refl _, h⟩

/-- The amended C1 bound evaluated at a concrete call: a two-byte file read
from offset 1. -/
theorem c1_witness :
    1 ≤ (getConversationStream (fun _ => none) (some [65, 10]) 1 false).nextOffset ∧
    (getConversationStream (fun _ => none) (some [65, 10]) 1 false).nextOffset ≤
      ([65, 10] : List Nat).length :=
  c1_stream_offset_bounds (fun _ => none) [65, 10] 1 false (by decide)

/-! ### Claim C9: missing history log yields empty results -/

/-- Claim C9: when the history log is missing or unreadable, loading the
history cache returns the empty list, and both getSessions and getProjects
computed from that cache are empty rather than errors. -/
theorem c9_missing_history_empty (ph : HistoryDecode) (dirs : MTimeDirs) :
    loadHistoryCache ph none = [] ∧
    getSessions dirs (loadHistoryCache ph none) = [] ∧
    getProjects (loadHistoryCache ph none) = [] :=
  ⟨rfl, rfl, rfl⟩

/-! ### Claim C10: blank lines in the stream loop -/

/-- Claim C10: in the stream loop a blank (whitespace-only) line is counted
as consumed — its byte length plus one newline byte is added to the bytes
consumed — without being decoded or emitted, and processing continues with
the remaining lines; by contrast a non-blank line that fails to decode halts
the loop with nothing consumed at or after it.  The first equation
determines the result from the rest of the lines alone, for every decoder,
so the blank line's decoding is never consulted. -/
theorem c10_blank_line_consumed (p : JsonDecode) (line bad : List Nat)
    (rest rest2 : List (List Nat)) (hblank : isBlank line = true)
    (hbad : isBlank bad = false) (hfail : p bad = none) :
    processLines p (line :: rest) =
      ((processLines p rest).1, (line.length + 1) + (processLines p rest).2) ∧
    processLines p (bad :: rest2) = ([], 0) := by
  constructor
  · simp only [processLines, hblank, if_true]
  · simp only [processLines, hbad, hfail, Bool.false_eq_true, if_false]

/-- The blank-line and malformed-line behaviour of the stream loop at
concrete inputs: a single space line, and a single non-blank undecodable
line. -/
theorem c10_witness :
    processLines (fun _ => none) ([32] :: ([] : List (List Nat))) =
      ((processLines (fun _ => none) ([] : List (List Nat))).1,
        (([32] : List Nat).length + 1) + (processLines (fun _ => none) ([] : List (List Nat))).2) ∧
    processLines (fun _ => none) ([88] :: ([] : List (List Nat))) = ([], 0) :=
  c10_blank_line_consumed (fun _ => none) [32] [88] [] [] (by decide) (by decide) rfl

/-! ### Claim C7: single-flight request coalescing -/

/-- Deleting a key removes every binding of it. -/
theorem lookupKey_removeKey (k : String) :
    ∀ l : List (String × α), lookupKey k (removeKey k l) = none := by
  intro l
  induction l with
  | nil => rfl
  | cons hd tl ih =>
    obtain ⟨k', v⟩ := hd
    unfold removeKey
    by_cases hk : k' = k
    · rw [if_pos hk]
      exact ih
    · rw [if_neg hk]
      unfold lookupKey
      rw [if_neg hk]
      exact ih

/-- Deleting an absent key changes nothing. -/
theorem removeKey_of_lookup_none (k : String) :
    ∀ l : List (String × α), lookupKey k l = none → removeKey k l = l := by
  intro l
  induction l with
  | nil => intro _; rfl
  | cons hd tl ih =>
    obtain ⟨k', v⟩ := hd
    intro h
    unfold lookupKey at h
    by_cases hk : k' = k
    · rw [if_pos hk] at h
      exact absurd h (by simp)
    · rw [if_neg hk] at h
      unfold removeKey
      rw [if_neg hk, ih h]

/-- Claim C7: requests through the dedupe registry are single-flight.  A
request whose key is already registered attaches to the registered
computation and changes nothing (so two concurrent identical-key requests
share one execution and receive the same computation); a request with an
unregistered key registers and starts exactly one new computation; when a
computation settles — in success or failure alike — its key is removed, a
second settle of the same key is a no-op (the entry is removed once), and a
subsequent request starts a fresh execution from scratch. -/
theorem c7_single_flight (s : SFState) (k : String) :
    (∀ id, lookupKey k s.registry = some id → sfRequest s k = (s, id)) ∧
    (lookupKey k s.registry = none →
      (sfRequest s k).2 = s.nextId ∧
      (sfRequest s k).1.started = s.started ++ [s.nextId] ∧
      lookupKey k (sfRequest s k).1.registry = some s.nextId) ∧
    (∀ ok, lookupKey k (sfSettle s k ok).registry = none) ∧
    (∀ ok ok2, sfSettle (sfSettle s k ok) k ok2 = sfSettle s k ok) ∧
    (∀ ok, (sfRequest (sfSettle s k ok) k).2 = s.nextId ∧
      (sfRequest (sfSettle s k ok) k).1.started = s.started ++ [s.nextId]) := by
  refine ⟨?_, ?_, ?_, ?_, ?_⟩
  · intro id h
    unfold sfRequest
    rw [h]
  · intro h
    unfold sfRequest
    rw [h]
    refine ⟨rfl, rfl, ?_⟩
    dsimp only
    unfold lookupKey
    rw [if_pos rfl]
  · intro _
    exact lookupKey_removeKey k s.registry
  · intro ok ok2
    unfold sfSettle
    rw [removeKey_of_lookup_none k _ (lookupKey_removeKey k s.registry)]
  · intro ok
    unfold sfRequest
    rw [show lookupKey k (sfSettle s k ok).registry = none from
      lookupKey_removeKey k s.registry]
    exact ⟨rfl, rfl⟩

/-! ### Claim C8: the File Index never shrinks -/

/-- `Map.set` answers the written key with the new value and leaves every
other key's answer unchanged. -/
theorem lookupKey_mapSet (key k : String) (v : α) :
    ∀ l : List (String × α),
      lookupKey key (mapSet k v l) = if k = key then some v else lookupKey key l := by
  intro l
  induction l with
  | nil =>
    simp only [mapSet, lookupKey]
  | cons hd tl ih =>
    obtain ⟨k', v'⟩ := hd
    simp only [mapSet]
    by_cases h1 : k' = k
    · subst h1
      rw [if_pos rfl]
      simp only [lookupKey]
      split_ifs <;> rfl
    · rw [if_neg h1]
      simp only [lookupKey]
      by_cases h2 : k' = key
      · have hk : ¬ k = key := fun hk => h1 (h2.trans hk.symm)
        rw [if_pos h2, if_neg hk, if_pos h2]
      · rw [if_neg h2, if_neg h2, ih]

/-- A present key stays present across a `Map.set`. -/
theorem lookupKey_mapSet_ne_none (key k : String) (v : α) (l : List (String × α))
    (h : lookupKey key l ≠ none) : lookupKey key (mapSet k v l) ≠ none := by
  rw [lookupKey_mapSet key k v l]
  by_cases hk : k = key
  · rw [if_pos hk]
    simp
  · rw [if_neg hk]
    exact h

/-- A fold whose every step keeps a key present keeps it present. -/
theorem lookupKey_foldl {β : Type} (key : String)
    (f : FileIndex → β → FileIndex)
    (hf : ∀ idx b, lookupKey key idx ≠ none → lookupKey key (f idx b) ≠ none) :
    ∀ (l : List β) (idx : FileIndex),
      lookupKey key idx ≠ none → lookupKey key (l.foldl f idx) ≠ none := by
  intro l
  induction l with
  | nil => intro idx h; exact h
  | cons b rest ih =>
    intro idx h
    exact ih (f idx b) (hf idx b h)

/-- Claim C8: the File Index's key set never shrinks.  Each of the three
operations of the engine that touch the index — `addToFileIndex` (driven by
change notifications), the initial scan `buildFileIndex`, and the
scan-on-miss inside `findSessionFile` — only adds or replaces entries, so a
session id present before any of them is still present after. -/
theorem c8_file_index_monotone (projectsDir : String) (dirs : NameDirs)
    (idx : FileIndex) (key sid fp sessionId : String)
    (h : lookupKey key idx ≠ none) :
    lookupKey key (addToFileIndex idx sid fp) ≠ none ∧
    lookupKey key (buildFileIndex projectsDir dirs idx) ≠ none ∧
    lookupKey key (findSessionFile projectsDir dirs idx sessionId).1 ≠ none := by
  refine ⟨lookupKey_mapSet_ne_none key sid fp idx h, ?_, ?_⟩
  · unfold buildFileIndex
    refine lookupKey_foldl key _ ?_ dirs idx h
    intro idx2 d h2
    refine lookupKey_foldl key _ ?_ d.2 idx2 h2
    intro idx3 file h3
    by_cases he : endsWithJsonl file
    · rw [if_pos he]
      exact lookupKey_mapSet_ne_none _ _ _ _ h3
    · rw [if_neg he]
      exact h3
  · unfold findSessionFile
    cases hc : lookupKey sessionId idx with
    | some p => exact h
    | none =>
      dsimp only
      cases hh : (dirs.filterMap (fun d =>
          if d.2.contains (sessionId ++ ".jsonl") then
            some (projectsDir ++ "/" ++ d.1 ++ "/" ++ (sessionId ++ ".jsonl"))
          else none)).head? with
      | some filePath =>
        dsimp only
        exact lookupKey_mapSet_ne_none _ _ _ _ h
      | none => exact h

/-- The index monotonicity evaluated at a concrete one-entry index across
all three operations. -/
theorem c8_witness :
    lookupKey "s" (addToFileIndex [("s", "/p/d/s.jsonl")] "t" "/p/d/t.jsonl") ≠ none ∧
    lookupKey "s" (buildFileIndex "/p" [("d", ["u.jsonl"])] [("s", "/p/d/s.jsonl")]) ≠ none ∧
    lookupKey "s" (findSessionFile "/p" [("d", ["u.jsonl"])] [("s", "/p/d/s.jsonl")] "u").1 ≠ none :=
  c8_file_index_monotone "/p" [("d", ["u.jsonl"])] [("s", "/p/d/s.jsonl")] "s" "t"
    "/p/d/t.jsonl" "u" (by decide)

/-! ### Claim C6: closest-mtime session resolution -/

/-- `firstMin` returns `none` only on the empty list. -/
theorem firstMin_eq_none (timestamp : Int) :
    ∀ fs : List (String × Int), firstMin timestamp fs = none → fs = [] := by
  intro fs
  cases fs with
  | nil => intro _; rfl
  | cons f rest =>
    intro h
    simp only [firstMin] at h
    cases hr : firstMin timestamp rest with
    | none => rw [hr] at h; exact absurd h (by simp)
    | some g =>
      rw [hr] at h
      dsimp only at h
      by_cases hle : (f.2 - timestamp).natAbs ≤ (g.2 - timestamp).natAbs
      · rw [if_pos hle] at h; exact absurd h (by simp)
      · rw [if_neg hle] at h; exact absurd h (by simp)

/-- The element `firstMin` returns has minimal distance to the timestamp. -/
theorem firstMin_min (timestamp : Int) :
    ∀ (fs : List (String × Int)) (f : String × Int), firstMin timestamp fs = some f →
      ∀ g ∈ fs, (f.2 - timestamp).natAbs ≤ (g.2 - timestamp).natAbs := by
  intro fs
  induction fs with
  | nil => intro f h; exact absurd h (by simp [firstMin])
  | cons f0 rest ih =>
    intro f h g hg
    simp only [firstMin] at h
    cases hr : firstMin timestamp rest with
    | none =>
      rw [hr] at h
      dsimp only at h
      have hf : f = f0 := (Option.some_inj.mp h).symm
      rw [hf]
      have hrest : rest = [] := firstMin_eq_none timestamp rest hr
      subst hrest
      have hgf : g = f0 := List.mem_singleton.mp hg
      rw [hgf]
    | some g0 =>
      rw [hr] at h
      dsimp only at h
      by_cases hle : (f0.2 - timestamp).natAbs ≤ (g0.2 - timestamp).natAbs
      · rw [if_pos hle] at h
        have hf : f = f0 := (Option.some_inj.mp h).symm
        rw [hf]
        rcases List.mem_cons.mp hg with hgf | hgr
        · rw [hgf]
        · exact le_trans hle (ih g0 hr g hgr)
      · rw [if_neg hle] at h
        have hf : f = g0 := (Option.some_inj.mp h).symm
        rw [hf]
        rcases List.mem_cons.mp hg with hgf | hgr
        · rw [hgf]
          omega
        · exact ih g0 hr g hgr

/-- The element `firstMin` returns is the first one attaining the minimal
distance: everything before it in the list is strictly farther, everything
after it is at least as far. -/
theorem firstMin_decomp (timestamp : Int) :
    ∀ (fs : List (String × Int)) (f : String × Int), firstMin timestamp fs = some f →
      ∃ pre post, fs = pre ++ f :: post ∧
        (∀ g ∈ pre, (f.2 - timestamp).natAbs < (g.2 - timestamp).natAbs) ∧
        (∀ g ∈ post, (f.2 - timestamp).natAbs ≤ (g.2 - timestamp).natAbs) := by
  intro fs
  induction fs with
  | nil => intro f h; exact absurd h (by simp [firstMin])
  | cons f0 rest ih =>
    intro f h
    simp only [firstMin] at h
    cases hr : firstMin timestamp rest with
    | none =>
      rw [hr] at h
      dsimp only at h
      have hf : f = f0 := (Option.some_inj.mp h).symm
      subst hf
      have hrest : rest = [] := firstMin_eq_none timestamp rest hr
      subst hrest
      exact ⟨[], [], rfl, by simp, by simp⟩
    | some g0 =>
      rw [hr] at h
      dsimp only at h
      by_cases hle : (f0.2 - timestamp).natAbs ≤ (g0.2 - timestamp).natAbs
      · rw [if_pos hle] at h
        have hf : f = f0 := (Option.some_inj.mp h).symm
        subst hf
        refine ⟨[], rest, rfl, by simp, ?_⟩
        intro g hg
        exact le_trans hle (firstMin_min timestamp rest g0 hr g hg)
      · rw [if_neg hle] at h
        have hf : f = g0 := (Option.some_inj.mp h).symm
        subst hf
        obtain ⟨pre, post, heq, hpre, hpost⟩ := ih f hr
        refine ⟨f0 :: pre, post, by rw [heq, List.cons_append], ?_, hpost⟩
        intro g hg
        rcases List.mem_cons.mp hg with hgf | hgp
        · rw [hgf]
          omega
        · exact hpre g hgp

/-- The fold of `findSessionByTimestamp` with a best-so-far candidate
computes: the first strictly-closer element of the remaining list if one
exists, else the candidate. -/
theorem closestLoop_acc (timestamp : Int) :
    ∀ (fs : List (String × Int)) (b : String) (d : Nat),
      closestLoop timestamp (some b) (some d) fs =
        match firstMin timestamp fs with
        | none => some b
        | some g => if (g.2 - timestamp).natAbs < d then some g.1 else some b := by
  intro fs
  induction fs with
  | nil => intro b d; rfl
  | cons f0 rest ih =>
    intro b d
    simp only [closestLoop, firstMin]
    by_cases hlt : (f0.2 - timestamp).natAbs < d
    · rw [if_pos hlt, ih]
      cases hr : firstMin timestamp rest with
      | none =>
        dsimp only
        rw [if_pos hlt]
      | some g0 =>
        dsimp only
        by_cases hle : (f0.2 - timestamp).natAbs ≤ (g0.2 - timestamp).natAbs
        · rw [if_pos hle]
          dsimp only
          rw [if_neg (show ¬ (g0.2 - timestamp).natAbs < (f0.2 - timestamp).natAbs by omega),
            if_pos hlt]
        · rw [if_neg hle]
          dsimp only
          rw [if_pos (show (g0.2 - timestamp).natAbs < (f0.2 - timestamp).natAbs by omega),
            if_pos (show (g0.2 - timestamp).natAbs < d by omega)]
    · rw [if_neg hlt, ih]
      cases hr : firstMin timestamp rest with
      | none =>
        dsimp only
        rw [if_neg hlt]
      | some g0 =>
        dsimp only
        by_cases hle : (f0.2 - timestamp).natAbs ≤ (g0.2 - timestamp).natAbs
        · rw [if_pos hle]
          dsimp only
          rw [if_neg (show ¬ (g0.2 - timestamp).natAbs < d by omega), if_neg hlt]
        · rw [if_neg hle]

/-- The source loop over the stat results picks exactly the first
minimal-distance file. -/
theorem closestLoop_eq_firstMin (timestamp : Int) (fs : List (String × Int)) :
    closestLoop timestamp none none fs = (firstMin timestamp fs).map Prod.fst := by
  cases fs with
  | nil => rfl
  | cons f0 rest =>
    simp only [closestLoop, firstMin]
    rw [closestLoop_acc]
    cases hr : firstMin timestamp rest with
    | none => rfl
    | some g0 =>
      dsimp only [Option.map]
      by_cases hle : (f0.2 - timestamp).natAbs ≤ (g0.2 - timestamp).natAbs
      · rw [if_pos hle]
        dsimp only
        rw [if_neg (show ¬ (g0.2 - timestamp).natAbs < (f0.2 - timestamp).natAbs by omega)]
      · rw [if_neg hle]
        dsimp only
        rw [if_pos (show (g0.2 - timestamp).natAbs < (f0.2 - timestamp).natAbs by omega)]

/-- Claim C6: when a history entry lacks a session id and the encoded
project directory lists some session-log files, the resolved id is the
filename (minus the `.jsonl` extension) of the file whose modification time
is numerically closest to the entry's timestamp, with equal-distance ties
resolved in favour of the file appearing earlier in the listing: every file
listed before the chosen one is strictly farther from the timestamp, and
every file after it is at least as far. -/
theorem c6_closest_mtime (dirs : MTimeDirs) (encodedProject : String)
    (timestamp : Int) (files : List (String × Int)) (f : String × Int)
    (hdir : lookupKey encodedProject dirs = some files)
    (hmin : firstMin timestamp (files.filter (fun g => endsWithJsonl g.1)) = some f) :
    findSessionByTimestamp dirs encodedProject timestamp = some (f.1.dropRight 6) ∧
    ∃ pre post,
      files.filter (fun g => endsWithJsonl g.1) = pre ++ f :: post ∧
      (∀ g ∈ pre, (f.2 - timestamp).natAbs < (g.2 - timestamp).natAbs) ∧
      (∀ g ∈ post, (f.2 - timestamp).natAbs ≤ (g.2 - timestamp).natAbs) := by
  constructor
  · unfold findSessionByTimestamp
    rw [hdir]
    dsimp only
    rw [closestLoop_eq_firstMin, hmin]
    rfl
  · exact firstMin_decomp timestamp _ f hmin

/-- The spec's resolution example: candidate files with modification times
10, 50 and 90 against entry timestamp 55 resolve to the file with mtime 50. -/
theorem c6_witness :
    findSessionByTimestamp [("p", [("a.jsonl", 10), ("b.jsonl", 50), ("c.jsonl", 90)])]
        "p" 55 = some (("b.jsonl" : String).dropRight 6) ∧
    ∃ pre post,
      ([("a.jsonl", (10 : Int)), ("b.jsonl", 50), ("c.jsonl", 90)].filter
          (fun g => endsWithJsonl g.1)) = pre ++ ("b.jsonl", (50 : Int)) :: post ∧
      (∀ g ∈ pre, (((⟨"b.jsonl", (50 : Int)⟩ : String × Int)).2 - 55).natAbs < (g.2 - 55).natAbs) ∧
      (∀ g ∈ post, (((⟨"b.jsonl", (50 : Int)⟩ : String × Int)).2 - 55).natAbs ≤ (g.2 - 55).natAbs) :=
  c6_closest_mtime [("p", [("a.jsonl", 10), ("b.jsonl", 50), ("c.jsonl", 90)])] "p" 55
    [("a.jsonl", 10), ("b.jsonl", 50), ("c.jsonl", 90)] ("b.jsonl", 50) rfl (by decide)

/-! ### Claim C4: summary records are prepended -/

/-- A user/assistant record is not a summary record. -/
theorem isUA_not_isSummary (m : ConversationMessage) (h : isUA m = true) :
    isSummary m = false := by
  obtain ⟨t, payload⟩ := m
  cases t <;> simp_all [isUA, isSummary]

/-- The conversation loop splits into the summaries in reverse order of
appearance, the starting accumulator, and the user/assistant records in
order of appearance. -/
theorem convLoop_decomp (p : JsonDecode) :
    ∀ (lines : List (List Nat)) (acc : List ConversationMessage),
      convLoop p lines acc =
        ((lines.filterMap p).filter isSummary).reverse ++ acc ++
          (lines.filterMap p).filter isUA := by
  intro lines
  induction lines with
  | nil => intro acc; simp [convLoop]
  | cons line rest ih =>
    intro acc
    cases hp : p line with
    | none =>
      simp only [convLoop, hp, List.filterMap_cons]
      exact ih acc
    | some m =>
      simp only [convLoop, hp, List.filterMap_cons]
      by_cases hua : isUA m
      · rw [if_pos hua, ih]
        simp only [List.filter_cons, hua, isUA_not_isSummary m hua]
        simp
      · rw [if_neg hua]
        by_cases hsum : isSummary m
        · rw [if_pos hsum, ih]
          simp only [List.filter_cons, hsum, eq_false_of_ne_true hua]
          simp
        · rw [if_neg hsum, ih]
          simp only [List.filter_cons, eq_false_of_ne_true hua, eq_false_of_ne_true hsum]
          simp

/-- Claim C4: `getConversation` appends user/assistant records in file order
and prepends summary records regardless of position, so the result is the
summaries in reverse file order followed by the user/assistant records in
file order; in particular the file with line order assistant, summary, user
yields summary, assistant, user. -/
theorem c4_summary_ordering :
    (∀ (p : JsonDecode) (content : List Nat),
      getConversation p (some content) false =
        ((((splitNL (trimBytes content)).filter (fun l => !l.isEmpty)).filterMap p).filter
            isSummary).reverse ++
          (((splitNL (trimBytes content)).filter (fun l => !l.isEmpty)).filterMap p).filter
            isUA) ∧
    getConversation exampleDecode (some [65, 10, 83, 10, 85]) false =
      [⟨.summary, 1⟩, ⟨.assistant, 0⟩, ⟨.user, 2⟩] := by
  constructor
  · intro p content
    show convLoop p ((splitNL (trimBytes content)).filter (fun l => !l.isEmpty)) [] = _
    rw [convLoop_decomp]
    simp
  · decide

/-! ### Claim C5: session list deduplication and ordering -/

/-- Resolution is stateless entry by entry: an unresolvable head entry
drops out of the resolved stream. -/
theorem resolvedSessions_cons_none (dirs : MTimeDirs) (e : HistoryEntry)
    (rest : List HistoryEntry) (hr : resolveId dirs e = none) :
    resolvedSessions dirs (e :: rest) = resolvedSessions dirs rest := by
  simp [resolvedSessions, List.filterMap_cons, hr]

/-- A resolvable head entry contributes its session to the resolved stream. -/
theorem resolvedSessions_cons_some (dirs : MTimeDirs) (e : HistoryEntry)
    (rest : List HistoryEntry) (sid : String) (hr : resolveId dirs e = some sid) :
    resolvedSessions dirs (e :: rest) = mkSession sid e :: resolvedSessions dirs rest := by
  simp [resolvedSessions, List.filterMap_cons, hr]

/-- The loop of `getSessions` is: resolve each entry's id independently,
then keep the first session carrying each id. -/
theorem sessionsLoop_eq_dedupFirst (dirs : MTimeDirs) :
    ∀ (entries : List HistoryEntry) (sessions : List Session) (seenIds : List String),
      sessionsLoop dirs entries sessions seenIds =
        sessions ++ dedupFirst (resolvedSessions dirs entries) seenIds := by
  intro entries
  induction entries with
  | nil =>
    intro sessions seenIds
    simp [sessionsLoop, resolvedSessions, dedupFirst]
  | cons e rest ih =>
    intro sessions seenIds
    cases hr : resolveId dirs e with
    | none =>
      rw [resolvedSessions_cons_none dirs e rest hr]
      simp only [sessionsLoop, hr]
      exact ih sessions seenIds
    | some sid =>
      rw [resolvedSessions_cons_some dirs e rest sid hr]
      simp only [sessionsLoop, hr]
      by_cases hc : seenIds.contains sid = true
      · rw [if_pos hc, ih sessions seenIds]
        have hd : dedupFirst (mkSession sid e :: resolvedSessions dirs rest) seenIds =
            dedupFirst (resolvedSessions dirs rest) seenIds := by
          simp only [dedupFirst]
          rw [show (mkSession sid e).id = sid from rfl, if_pos hc]
        rw [hd]
      · rw [if_neg hc, ih (sessions ++ [mkSession sid e]) (sid :: seenIds)]
        have hd : dedupFirst (mkSession sid e :: resolvedSessions dirs rest) seenIds =
            mkSession sid e :: dedupFirst (resolvedSessions dirs rest) (sid :: seenIds) := by
          simp only [dedupFirst]
          rw [show (mkSession sid e).id = sid from rfl, if_neg hc]
        rw [hd]
        simp

/-- Every session kept by the dedup loop has an id outside the seen set. -/
theorem dedupFirst_mem_not_seen :
    ∀ (l : List Session) (seen : List String) (s : Session),
      s ∈ dedupFirst l seen → ¬ seen.contains s.id = true := by
  intro l
  induction l with
  | nil =>
    intro seen s hs
    simp [dedupFirst] at hs
  | cons t rest ih =>
    intro seen s hs
    simp only [dedupFirst] at hs
    by_cases hc : seen.contains t.id = true
    · rw [if_pos hc] at hs
      exact ih seen s hs
    · rw [if_neg hc] at hs
      rcases List.mem_cons.mp hs with hst | hmem
      · rw [hst]
        exact hc
      · intro hin
        refine ih (t.id :: seen) s hmem ?_
        have : s.id ∈ seen := List.elem_iff.mp hin
        exact List.elem_iff.mpr (List.mem_cons_of_mem _ this)

/-- The dedup loop never keeps two sessions with the same id. -/
theorem dedupFirst_pairwise :
    ∀ (l : List Session) (seen : List String),
      (dedupFirst l seen).Pairwise (fun a b => a.id ≠ b.id) := by
  intro l
  induction l with
  | nil =>
    intro seen
    simp [dedupFirst]
  | cons t rest ih =>
    intro seen
    simp only [dedupFirst]
    by_cases hc : seen.contains t.id = true
    · rw [if_pos hc]
      exact ih seen
    · rw [if_neg hc]
      refine List.Pairwise.cons ?_ (ih (t.id :: seen))
      intro s hs heq
      refine dedupFirst_mem_not_seen rest (t.id :: seen) s hs ?_
      refine List.elem_iff.mpr ?_
      rw [← heq]
      exact List.mem_cons_self _ _

/-- Inserting into the timestamp-descending list is a permutation. -/
theorem insertDesc_perm (s : Session) :
    ∀ l : List Session, (insertDesc s l).Perm (s :: l) := by
  intro l
  induction l with
  | nil => exact List.Perm.refl _
  | cons t rest ih =>
    simp only [insertDesc]
    by_cases hc : t.timestamp ≤ s.timestamp
    · rw [if_pos hc]
    · rw [if_neg hc]
      exact (ih.cons t).trans (List.Perm.swap s t rest)

/-- The stable sort of `getSessions` is a permutation of its input. -/
theorem sortDesc_perm : ∀ l : List Session, (sortDesc l).Perm l := by
  intro l
  induction l with
  | nil => exact List.Perm.refl _
  | cons s rest ih =>
    exact (insertDesc_perm s (sortDesc rest)).trans (ih.cons s)

/-- Insertion preserves the timestamp-descending order. -/
theorem insertDesc_pairwise (s : Session) :
    ∀ l : List Session, l.Pairwise (fun a b => b.timestamp ≤ a.timestamp) →
      (insertDesc s l).Pairwise (fun a b => b.timestamp ≤ a.timestamp) := by
  intro l
  induction l with
  | nil =>
    intro _
    simp [insertDesc]
  | cons t rest ih =>
    intro h
    obtain ⟨h1, h2⟩ := List.pairwise_cons.mp h
    simp only [insertDesc]
    by_cases hc : t.timestamp ≤ s.timestamp
    · rw [if_pos hc]
      refine List.Pairwise.cons ?_ h
      intro x hx
      rcases List.mem_cons.mp hx with hxt | hxr
      · rw [hxt]
        exact hc
      · exact le_trans (h1 x hxr) hc
    · rw [if_neg hc]
      refine List.Pairwise.cons ?_ (ih h2)
      intro x hx
      rcases List.mem_cons.mp ((insertDesc_perm s rest).mem_iff.mp hx) with hxs | hxr
      · rw [hxs]
        omega
      · exact h1 x hxr

/-- The sort of `getSessions` yields a timestamp-descending list. -/
theorem sortDesc_sorted :
    ∀ l : List Session, (sortDesc l).Pairwise (fun a b => b.timestamp ≤ a.timestamp) := by
  intro l
  induction l with
  | nil => simp [sortDesc]
  | cons s rest ih => exact insertDesc_pairwise s (sortDesc rest) ih

/-- Inserting an element carrying the filtered timestamp puts it in front of
every other element with that timestamp: the scan stops before passing any
equal timestamp. -/
theorem insertDesc_filter_eq (s : Session) (t : Int) (hs : s.timestamp = t) :
    ∀ l : List Session,
      (insertDesc s l).filter (fun x => decide (x.timestamp = t)) =
        s :: l.filter (fun x => decide (x.timestamp = t)) := by
  intro l
  induction l with
  | nil => simp [insertDesc, hs]
  | cons u rest ih =>
    simp only [insertDesc]
    by_cases hc : u.timestamp ≤ s.timestamp
    · rw [if_pos hc]
      simp [List.filter_cons, hs]
    · rw [if_neg hc]
      have hu : ¬ (u.timestamp = t) := by omega
      simp [List.filter_cons, hu, ih]

/-- Inserting an element with another timestamp leaves the filtered
subsequence untouched. -/
theorem insertDesc_filter_ne (s : Session) (t : Int) (hs : ¬ s.timestamp = t) :
    ∀ l : List Session,
      (insertDesc s l).filter (fun x => decide (x.timestamp = t)) =
        l.filter (fun x => decide (x.timestamp = t)) := by
  intro l
  induction l with
  | nil => simp [insertDesc, hs]
  | cons u rest ih =>
    simp only [insertDesc]
    by_cases hc : u.timestamp ≤ s.timestamp
    · rw [if_pos hc]
      simp [List.filter_cons, hs]
    · rw [if_neg hc]
      simp [List.filter_cons, ih]

/-- Stability of the sort: the subsequence at any fixed timestamp is exactly
the original subsequence at that timestamp. -/
theorem sortDesc_filter (t : Int) :
    ∀ l : List Session,
      (sortDesc l).filter (fun x => decide (x.timestamp = t)) =
        l.filter (fun x => decide (x.timestamp = t)) := by
  intro l
  induction l with
  | nil => rfl
  | cons s rest ih =>
    simp only [sortDesc]
    by_cases hs : s.timestamp = t
    · rw [insertDesc_filter_eq s t hs, ih]
      simp [List.filter_cons, hs]
    · rw [insertDesc_filter_ne s t hs, ih]
      simp [List.filter_cons, hs]

/-- Claim C5: `getSessions` equals the first-entry-wins deduplication of the
per-entry resolved session stream, stably sorted by timestamp descending:
no two returned sessions share an id, the list is timestamp-descending, and
within each timestamp the original history-log order is preserved. -/
theorem c5_sessions_dedup_sorted (dirs : MTimeDirs) (entries : List HistoryEntry) :
    getSessions dirs entries =
      sortDesc (dedupFirst (resolvedSessions dirs entries) []) ∧
    (getSessions dirs entries).Pairwise (fun a b => a.id ≠ b.id) ∧
    (getSessions dirs entries).Pairwise (fun a b => b.timestamp ≤ a.timestamp) ∧
    (∀ t : Int,
      (getSessions dirs entries).filter (fun s => decide (s.timestamp = t)) =
        (dedupFirst (resolvedSessions dirs entries) []).filter
          (fun s => decide (s.timestamp = t))) := by
  have hpre : sessionsLoop dirs entries [] [] =
      dedupFirst (resolvedSessions dirs entries) [] := by
    rw [sessionsLoop_eq_dedupFirst dirs entries [] []]
    rfl
  refine ⟨by rw [getSessions, hpre], ?_, ?_, ?_⟩
  · rw [getSessions, hpre]
    exact ((sortDesc_perm _).pairwise_iff (fun hab => hab.symm)).mpr
      (dedupFirst_pairwise _ [])
  · rw [getSessions, hpre]
    exact sortDesc_sorted _
  · intro t
    rw [getSessions, hpre]
    exact sortDesc_filter t _

/-! ### Structural facts about line splitting and byte accounting -/

/-- `split` never returns an empty segment list. -/
theorem splitNL_ne_nil (bs : List Nat) : splitNL bs ≠ [] := by
  cases bs with
  | nil => simp [splitNL]
  | cons b bs2 =>
    simp only [splitNL]
    by_cases hb : b = 10
    · rw [if_pos hb]
      simp
    · rw [if_neg hb]
      cases hr : splitNL bs2 with
      | nil => simp
      | cons l ls => simp

/-- `split` and the readline lines differ at most by one trailing empty
segment. -/
theorem splitNL_eq_rlLines_or (bs : List Nat) :
    splitNL bs = rlLines bs ++ [[]] ∨ splitNL bs = rlLines bs := by
  induction bs with
  | nil => exact Or.inl rfl
  | cons b bs2 ih =>
    simp only [splitNL, rlLines]
    by_cases hb : b = 10
    · rw [if_pos hb, if_pos hb]
      rcases ih with h | h
      · rw [h]
        exact Or.inl rfl
      · rw [h]
        exact Or.inr rfl
    · rw [if_neg hb, if_neg hb]
      rcases ih with h | h
      · rw [h]
        cases hr : rlLines bs2 with
        | nil => exact Or.inr rfl
        | cons l ls => exact Or.inl rfl
      · rw [h]
        cases hr : rlLines bs2 with
        | nil => exact Or.inr rfl
        | cons l ls => exact Or.inr rfl

/-- Byte accounting over concatenated line lists. -/
theorem sumBytes_append (a b : List (List Nat)) :
    sumBytes (a ++ b) = sumBytes a + sumBytes b := by
  induction a with
  | nil => simp [sumBytes]
  | cons l rest ih =>
    simp only [sumBytes, List.foldr_cons, List.cons_append] at *
    omega

/-- The loop's byte charge over all readline lines covers the whole byte
range: it is at least the byte count. -/
theorem sumBytes_rlLines_ge (bs : List Nat) : bs.length ≤ sumBytes (rlLines bs) := by
  induction bs with
  | nil => simp [rlLines, sumBytes]
  | cons b bs2 ih =>
    simp only [rlLines]
    by_cases hb : b = 10
    · rw [if_pos hb]
      simp only [sumBytes, List.foldr_cons] at *
      simp only [List.length_cons, List.length_nil]
      omega
    · rw [if_neg hb]
      cases hr : rlLines bs2 with
      | nil =>
        have : bs2.length ≤ sumBytes ([] : List (List Nat)) := hr ▸ ih
        simp only [sumBytes, List.foldr_cons, List.foldr_nil] at *
        simp only [List.length_cons, List.length_singleton]
        omega
      | cons l ls =>
        have := hr ▸ ih
        simp only [sumBytes, List.foldr_cons] at *
        simp only [List.length_cons]
        omega

/-- The loop's byte charge overshoots the byte range by at most the one
newline it presumes after the final line. -/
theorem sumBytes_rlLines_le (bs : List Nat) : sumBytes (rlLines bs) ≤ bs.length + 1 := by
  induction bs with
  | nil => simp [rlLines, sumBytes]
  | cons b bs2 ih =>
    simp only [rlLines]
    by_cases hb : b = 10
    · rw [if_pos hb]
      simp only [sumBytes, List.foldr_cons] at *
      simp only [List.length_cons, List.length_nil]
      omega
    · rw [if_neg hb]
      cases hr : rlLines bs2 with
      | nil =>
        have : sumBytes ([] : List (List Nat)) ≤ bs2.length + 1 := hr ▸ ih
        simp only [sumBytes, List.foldr_cons, List.foldr_nil] at *
        simp only [List.length_cons, List.length_singleton, List.length_nil]
        omega
      | cons l ls =>
        have := hr ▸ ih
        simp only [sumBytes, List.foldr_cons] at *
        simp only [List.length_cons]
        omega

/-- Dropping a consumed line's bytes (its length plus its newline) lands
exactly at the start of the next line, as long as a next line exists. -/
theorem rlLines_drop_one (bs : List Nat) :
    ∀ l ls, rlLines bs = l :: ls → ls ≠ [] →
      rlLines (bs.drop (l.length + 1)) = ls := by
  induction bs with
  | nil => intro l ls h _; simp [rlLines] at h
  | cons b bs2 ih =>
    intro l ls h hls
    simp only [rlLines] at h
    by_cases hb : b = 10
    · rw [if_pos hb] at h
      injection h with h1 h2
      subst h1
      subst h2
      simp [rlLines]
    · rw [if_neg hb] at h
      cases hr : rlLines bs2 with
      | nil =>
        rw [hr] at h
        injection h with h1 h2
        exact absurd h2.symm hls
      | cons l2 ls2 =>
        rw [hr] at h
        injection h with h1 h2
        subst h1
        subst h2
        have hstep : (b :: bs2).drop ((b :: l2).length + 1) = bs2.drop (l2.length + 1) := by
          simp
        rw [hstep]
        exact ih l2 ls2 hr hls

/-- Iterating the one-line byte drop: dropping the bytes of the first `k`
lines lands at the start of line `k`. -/
theorem rlLines_drop_bytes (k : Nat) :
    ∀ bs : List Nat, k < (rlLines bs).length →
      rlLines (bs.drop (sumBytes ((rlLines bs).take k))) = (rlLines bs).drop k := by
  induction k with
  | zero =>
    intro bs _
    simp [sumBytes]
  | succ j ih =>
    intro bs hk
    cases hr : rlLines bs with
    | nil =>
      rw [hr] at hk
      simp at hk
    | cons l ls =>
      rw [hr] at hk
      have hls : ls ≠ [] := by
        intro h0
        rw [h0] at hk
        simp at hk
      have hdrop : rlLines (bs.drop (l.length + 1)) = ls := rlLines_drop_one bs l ls hr hls
      have hk2 : j < ls.length := by
        simp only [List.length_cons] at hk
        omega
      have ihj := ih (bs.drop (l.length + 1))
      rw [hdrop] at ihj
      have hrec := ihj hk2
      rw [List.take_succ_cons, List.drop_succ_cons]
      have hsum : sumBytes (l :: ls.take j) = (l.length + 1) + sumBytes (ls.take j) := rfl
      rw [hsum]
      rw [List.drop_drop] at hrec
      exact hrec

/-! ### The stream loop against the first undecodable line -/

/-- Branch fact: a blank line is consumed and skipped by the loop. -/
theorem processLines_cons_blank (p : JsonDecode) (line : List Nat)
    (rest : List (List Nat)) (hb : isBlank line = true) :
    processLines p (line :: rest) =
      ((processLines p rest).1, (line.length + 1) + (processLines p rest).2) := by
  simp only [processLines, hb, if_true]

/-- Branch fact: a non-blank undecodable line stops the loop cold. -/
theorem processLines_cons_fail (p : JsonDecode) (line : List Nat)
    (rest : List (List Nat)) (hb : isBlank line = false) (hm : p line = none) :
    processLines p (line :: rest) = ([], 0) := by
  simp only [processLines, hb, hm, Bool.false_eq_true, if_false]

/-- Branch fact: a decodable line is consumed, and emitted when it is a
user/assistant record. -/
theorem processLines_cons_ok (p : JsonDecode) (line : List Nat)
    (rest : List (List Nat)) (m : ConversationMessage)
    (hb : isBlank line = false) (hm : p line = some m) :
    processLines p (line :: rest) =
      ((if isUA m then m :: (processLines p rest).1 else (processLines p rest).1),
        (line.length + 1) + (processLines p rest).2) := by
  simp only [processLines, hb, hm, Bool.false_eq_true, if_false]

/-- Branch fact for the extraction: blank lines contribute nothing. -/
theorem uaNB_cons_blank (p : JsonDecode) (line : List Nat)
    (rest : List (List Nat)) (hb : isBlank line = true) :
    uaNB p (line :: rest) = uaNB p rest := by
  simp [uaNB, List.filterMap_cons, hb]

/-- Branch fact for the extraction: a decoded line contributes itself
exactly when it is a user/assistant record. -/
theorem uaNB_cons_ok (p : JsonDecode) (line : List Nat) (rest : List (List Nat))
    (m : ConversationMessage) (hb : isBlank line = false) (hm : p line = some m) :
    uaNB p (line :: rest) = if isUA m then m :: uaNB p rest else uaNB p rest := by
  simp only [uaNB, List.filterMap_cons, hb, hm, Bool.false_eq_true, if_false]
  by_cases hua : isUA m = true
  · simp [hua]
  · simp [hua]

/-- Branch fact for the extraction: an undecodable line contributes
nothing. -/
theorem uaNB_cons_fail (p : JsonDecode) (line : List Nat) (rest : List (List Nat))
    (hb : isBlank line = false) (hm : p line = none) :
    uaNB p (line :: rest) = uaNB p rest := by
  simp [uaNB, List.filterMap_cons, hb, hm]

/-- Branch facts for the first-undecodable-line index. -/
theorem firstBad_cons_blank (p : JsonDecode) (line : List Nat)
    (rest : List (List Nat)) (hb : isBlank line = true) :
    firstBad p (line :: rest) = (firstBad p rest).map (· + 1) := by
  simp only [firstBad, hb, if_true]

/-- A decodable line pushes the first undecodable index one further. -/
theorem firstBad_cons_ok (p : JsonDecode) (line : List Nat) (rest : List (List Nat))
    (m : ConversationMessage) (hb : isBlank line = false) (hm : p line = some m) :
    firstBad p (line :: rest) = (firstBad p rest).map (· + 1) := by
  simp only [firstBad, hb, hm, Bool.false_eq_true, if_false]

/-- A non-blank undecodable line is the first undecodable line. -/
theorem firstBad_cons_fail (p : JsonDecode) (line : List Nat) (rest : List (List Nat))
    (hb : isBlank line = false) (hm : p line = none) :
    firstBad p (line :: rest) = some 0 := by
  simp only [firstBad, hb, hm, Bool.false_eq_true, if_false]

/-- When every non-blank line decodes, the loop returns all user/assistant
records and charges every line's bytes. -/
theorem processLines_no_bad (p : JsonDecode) :
    ∀ lines : List (List Nat), firstBad p lines = none →
      processLines p lines = (uaNB p lines, sumBytes lines) := by
  intro lines
  induction lines with
  | nil => intro _; rfl
  | cons line rest ih =>
    intro h
    by_cases hb : isBlank line = true
    · rw [firstBad_cons_blank p line rest hb] at h
      have hr : firstBad p rest = none := by
        cases hfb : firstBad p rest with
        | none => rfl
        | some j => rw [hfb] at h; simp at h
      rw [processLines_cons_blank p line rest hb, ih hr, uaNB_cons_blank p line rest hb]
      rfl
    · have hb' : isBlank line = false := eq_false_of_ne_true hb
      cases hm : p line with
      | none =>
        rw [firstBad_cons_fail p line rest hb' hm] at h
        simp at h
      | some m =>
        rw [firstBad_cons_ok p line rest m hb' hm] at h
        have hr : firstBad p rest = none := by
          cases hfb : firstBad p rest with
          | none => rfl
          | some j => rw [hfb] at h; simp at h
        rw [processLines_cons_ok p line rest m hb' hm, ih hr,
          uaNB_cons_ok p line rest m hb' hm]
        rfl

/-- When line `k` is the first non-blank undecodable line, the loop returns
exactly the records of the first `k` lines and charges exactly their bytes,
and line `k` itself is non-blank and undecodable. -/
theorem processLines_first_bad (p : JsonDecode) :
    ∀ (lines : List (List Nat)) (k : Nat), firstBad p lines = some k →
      processLines p lines = (uaNB p (lines.take k), sumBytes (lines.take k)) ∧
      ∃ bad rest2, lines.drop k = bad :: rest2 ∧ isBlank bad = false ∧ p bad = none := by
  intro lines
  induction lines with
  | nil => intro k h; simp [firstBad] at h
  | cons line rest ih =>
    intro k h
    by_cases hb : isBlank line = true
    · rw [firstBad_cons_blank p line rest hb] at h
      cases hfb : firstBad p rest with
      | none => rw [hfb] at h; simp at h
      | some j =>
        rw [hfb] at h
        simp only [Option.map_some'] at h
        have hk : k = j + 1 := (Option.some_inj.mp h).symm
        subst hk
        obtain ⟨h1, h2⟩ := ih j hfb
        constructor
        · rw [List.take_succ_cons, processLines_cons_blank p line rest hb, h1,
            uaNB_cons_blank p line (rest.take j) hb]
          rfl
        · rw [List.drop_succ_cons]
          exact h2
    · have hb' : isBlank line = false := eq_false_of_ne_true hb
      cases hm : p line with
      | none =>
        rw [firstBad_cons_fail p line rest hb' hm] at h
        have hk : k = 0 := (Option.some_inj.mp h).symm
        subst hk
        constructor
        · rw [List.take_zero, processLines_cons_fail p line rest hb' hm]
          rfl
        · exact ⟨line, rest, by simp, hb', hm⟩
      | some m =>
        rw [firstBad_cons_ok p line rest m hb' hm] at h
        cases hfb : firstBad p rest with
        | none => rw [hfb] at h; simp at h
        | some j =>
          rw [hfb] at h
          simp only [Option.map_some'] at h
          have hk : k = j + 1 := (Option.some_inj.mp h).symm
          subst hk
          obtain ⟨h1, h2⟩ := ih j hfb
          constructor
          · rw [List.take_succ_cons, processLines_cons_ok p line rest m hb' hm, h1,
              uaNB_cons_ok p line (rest.take j) m hb' hm]
            rfl
          · rw [List.drop_succ_cons]
            exact h2

/-! ### The stream call characterized by the first undecodable line -/

/-- When every non-blank line in the read range decodes, the call returns
all its user/assistant records and advances to end of file. -/
theorem gcs_no_bad (p : JsonDecode) (content : List Nat) (off : Nat)
    (hoff : off < content.length)
    (hgood : firstBad p (rlLines (content.drop off)) = none) :
    getConversationStream p (some content) off false =
      ⟨uaNB p (rlLines (content.drop off)), content.length⟩ := by
  rw [gcs_main p content off (by omega), processLines_no_bad p _ hgood]
  dsimp only
  have hge := sumBytes_rlLines_ge (content.drop off)
  have hlen : (content.drop off).length = content.length - off := List.length_drop off content
  have hoffs : (if content.length < off + sumBytes (rlLines (content.drop off))
      then content.length else off + sumBytes (rlLines (content.drop off))) =
      content.length := by
    split <;> omega
  rw [hoffs]

/-- When line `k` of the read range is the first non-blank undecodable
line, the call returns the records of the lines before `k`, advances
exactly past their bytes — strictly short of end of file — and the bytes
from that offset split into exactly the lines from `k` on. -/
theorem gcs_first_bad (p : JsonDecode) (content : List Nat)
    (off k : Nat) (hoff : off < content.length)
    (hbad : firstBad p (rlLines (content.drop off)) = some k) :
    getConversationStream p (some content) off false =
      ⟨uaNB p ((rlLines (content.drop off)).take k),
        off + sumBytes ((rlLines (content.drop off)).take k)⟩ ∧
    off + sumBytes ((rlLines (content.drop off)).take k) < content.length ∧
    rlLines (content.drop (off + sumBytes ((rlLines (content.drop off)).take k))) =
      (rlLines (content.drop off)).drop k := by
  obtain ⟨hpl, bad, rest2, hdk, hbadblank, hbadfail⟩ :=
    processLines_first_bad p (rlLines (content.drop off)) k hbad
  have hklt : k < (rlLines (content.drop off)).length := by
    by_contra hge
    push_neg at hge
    rw [List.drop_eq_nil_of_le hge] at hdk
    exact absurd hdk (by simp)
  have hbadlen : 1 ≤ bad.length := by
    cases bad with
    | nil => simp [isBlank] at hbadblank
    | cons c cs => simp
  have hsum : sumBytes (rlLines (content.drop off)) =
      sumBytes ((rlLines (content.drop off)).take k) +
        ((bad.length + 1) + sumBytes rest2) := by
    have h0 := sumBytes_append ((rlLines (content.drop off)).take k)
      ((rlLines (content.drop off)).drop k)
    rw [List.take_append_drop, hdk] at h0
    exact h0
  have hle := sumBytes_rlLines_le (content.drop off)
  have hlen : (content.drop off).length = content.length - off := List.length_drop off content
  have hlt : off + sumBytes ((rlLines (content.drop off)).take k) < content.length := by
    omega
  refine ⟨?_, hlt, ?_⟩
  · rw [gcs_main p content off (by omega), hpl]
    dsimp only
    rw [if_neg (by omega)]
  · have hdd : content.drop (off + sumBytes ((rlLines (content.drop off)).take k)) =
        (content.drop off).drop (sumBytes ((rlLines (content.drop off)).take k)) := by
      rw [List.drop_drop]
    rw [hdd]
    exact rlLines_drop_bytes k (content.drop off) hklt

/-! ### Claim C3: an undecodable line halts the call and is re-offered -/

/-- Claim C3: if line `k` of the read range is the first non-blank line
that fails to decode, the call returns every complete prior
user/assistant record, its nextOffset excludes the failing line's bytes —
it advances exactly past the `k` consumed lines and stays strictly below
the file size — and the next call's read range starts exactly at the
failing line, re-offering the same bytes. -/
theorem c3_unparseable_line_reoffered (p : JsonDecode) (content : List Nat)
    (off k : Nat) (hoff : off < content.length)
    (hbad : firstBad p (rlLines (content.drop off)) = some k) :
    (getConversationStream p (some content) off false).messages =
      uaNB p ((rlLines (content.drop off)).take k) ∧
    (getConversationStream p (some content) off false).nextOffset =
      off + sumBytes ((rlLines (content.drop off)).take k) ∧
    (getConversationStream p (some content) off false).nextOffset < content.length ∧
    rlLines (content.drop ((getConversationStream p (some content) off false).nextOffset)) =
      (rlLines (content.drop off)).drop k := by
  obtain ⟨hr, hlt, hre⟩ := gcs_first_bad p content off k hoff hbad
  rw [hr]
  exact ⟨rfl, rfl, hlt, hre⟩

/-- The partial-write scenario at a concrete file: two lines, the second
unterminated and undecodable; the call returns the first record, stops
before the trailing bytes, and the next read starts at those bytes. -/
theorem c3_witness :
    (getConversationStream exampleDecode (some [65, 10, 88, 89]) 0 false).messages =
      uaNB exampleDecode ((rlLines (([65, 10, 88, 89] : List Nat).drop 0)).take 1) ∧
    (getConversationStream exampleDecode (some [65, 10, 88, 89]) 0 false).nextOffset =
      0 + sumBytes ((rlLines (([65, 10, 88, 89] : List Nat).drop 0)).take 1) ∧
    (getConversationStream exampleDecode (some [65, 10, 88, 89]) 0 false).nextOffset <
      ([65, 10, 88, 89] : List Nat).length ∧
    rlLines (([65, 10, 88, 89] : List Nat).drop
        ((getConversationStream exampleDecode (some [65, 10, 88, 89]) 0 false).nextOffset)) =
      (rlLines (([65, 10, 88, 89] : List Nat).drop 0)).drop 1 :=
  c3_unparseable_line_reoffered exampleDecode [65, 10, 88, 89] 0 1 (by decide) (by decide)

/-! ### Whitespace and trimming facts -/

/-- Trimming a blank line leaves nothing. -/
theorem trimBytes_blank (l : List Nat) (h : isBlank l = true) : trimBytes l = [] := by
  unfold trimBytes
  have hd : l.dropWhile isWSByte = [] := by
    rw [List.dropWhile_eq_nil_iff]
    intro x hx
    exact List.all_eq_true.mp h x hx
  rw [hd]
  rfl

/-- Dropping leading whitespace does not change whether every byte is
whitespace. -/
theorem all_ws_dropWhile (l : List Nat) :
    (l.dropWhile isWSByte).all isWSByte = l.all isWSByte := by
  induction l with
  | nil => rfl
  | cons b rest ih =>
    rw [List.dropWhile_cons]
    by_cases hb : isWSByte b = true
    · rw [if_pos hb, ih, List.all_cons, hb, Bool.true_and]
    · rw [if_neg hb]

/-- Trimming does not change whether a line is blank. -/
theorem isBlank_trimBytes (l : List Nat) : isBlank (trimBytes l) = isBlank l := by
  unfold isBlank trimBytes trimRight
  rw [List.all_reverse, all_ws_dropWhile, List.all_reverse, all_ws_dropWhile]

/-- A leading whitespace byte disappears under trimming. -/
theorem trimBytes_cons_ws (w : Nat) (l : List Nat) (hw : isWSByte w = true) :
    trimBytes (w :: l) = trimBytes l := by
  unfold trimBytes
  rw [List.dropWhile_cons, if_pos hw]

/-- A leading whitespace byte does not change blankness. -/
theorem isBlank_cons_ws (w : Nat) (l : List Nat) (hw : isWSByte w = true) :
    isBlank (w :: l) = isBlank l := by
  unfold isBlank
  rw [List.all_cons, hw, Bool.true_and]

/-- A trailing whitespace byte does not change blankness. -/
theorem isBlank_append_ws (w : Nat) (l : List Nat) (hw : isWSByte w = true) :
    isBlank (l ++ [w]) = isBlank l := by
  unfold isBlank
  rw [List.all_append, List.all_cons, List.all_nil, hw]
  simp

/-- A trailing whitespace byte disappears under right trimming. -/
theorem trimRight_append_ws (w : Nat) (l : List Nat) (hw : isWSByte w = true) :
    trimRight (l ++ [w]) = trimRight l := by
  unfold trimRight
  rw [List.reverse_append]
  simp only [List.reverse_cons, List.reverse_nil, List.nil_append, List.singleton_append]
  rw [List.dropWhile_cons, if_pos hw]

/-- A trailing non-whitespace byte survives right trimming whole. -/
theorem trimRight_append_not_ws (w : Nat) (l : List Nat) (hw : isWSByte w = false) :
    trimRight (l ++ [w]) = l ++ [w] := by
  unfold trimRight
  rw [List.reverse_append]
  simp only [List.reverse_cons, List.reverse_nil, List.nil_append, List.singleton_append]
  rw [List.dropWhile_cons, if_neg (by rw [hw]; exact Bool.false_ne_true)]
  simp

/-- A trailing whitespace byte disappears under full trimming. -/
theorem trimBytes_append_ws (w : Nat) (l : List Nat) (hw : isWSByte w = true) :
    trimBytes (l ++ [w]) = trimBytes l := by
  unfold trimBytes
  by_cases hall : l.dropWhile isWSByte = []
  · have hall2 : (l ++ [w]).dropWhile isWSByte = [] := by
      rw [List.dropWhile_eq_nil_iff] at hall ⊢
      intro x hx
      rcases List.mem_append.mp hx with hxl | hxw
      · exact hall x hxl
      · rw [List.mem_singleton.mp hxw]
        exact hw
    rw [hall, hall2]
  · rw [List.dropWhile_append, if_neg (by simpa [List.isEmpty_iff] using hall)]
    exact trimRight_append_ws w _ hw

/-- The trimmed non-blank view distributes over concatenation of line
lists. -/
theorem trimmedLines_append (a b : List (List Nat)) :
    trimmedLines (a ++ b) = trimmedLines a ++ trimmedLines b := by
  unfold trimmedLines
  rw [List.filter_append, List.map_append]

/-! ### The trimmed non-blank lines are invariant under whole-file trim -/

/-- Equation: a newline byte opens a fresh empty segment. -/
theorem splitNL_cons_10 (bs : List Nat) : splitNL (10 :: bs) = [] :: splitNL bs := by
  simp [splitNL]

/-- Equation: an ordinary byte extends the first segment. -/
theorem splitNL_cons_not (b : Nat) (bs : List Nat) (hb : ¬ b = 10) (h : List Nat)
    (t : List (List Nat)) (hS : splitNL bs = h :: t) :
    splitNL (b :: bs) = (b :: h) :: t := by
  simp only [splitNL, if_neg hb, hS]

/-- Appending a newline byte appends an empty segment. -/
theorem splitNL_append_10 : ∀ bs : List Nat, splitNL (bs ++ [10]) = splitNL bs ++ [[]] := by
  intro bs
  induction bs with
  | nil => rfl
  | cons b bs2 ih =>
    by_cases hb : b = 10
    · subst hb
      rw [List.cons_append, splitNL_cons_10, ih, splitNL_cons_10]
      rfl
    · obtain ⟨h, t, hS⟩ := List.exists_cons_of_ne_nil (splitNL_ne_nil bs2)
      have hS2 : splitNL (bs2 ++ [10]) = h :: (t ++ [[]]) := by
        rw [ih, hS]
        rfl
      rw [List.cons_append, splitNL_cons_not b _ hb h (t ++ [[]]) hS2,
        splitNL_cons_not b bs2 hb h t hS]
      rfl

/-- Appending an ordinary byte extends the final segment. -/
theorem splitNL_append_not10 (w : Nat) (hw : ¬ w = 10) :
    ∀ (bs : List Nat) (init : List (List Nat)) (lst : List Nat),
      splitNL bs = init ++ [lst] → splitNL (bs ++ [w]) = init ++ [lst ++ [w]] := by
  intro bs
  induction bs with
  | nil =>
    intro init lst h
    have hi : init = [] ∧ lst = [] := by
      cases init with
      | nil => simpa [splitNL] using h.symm
      | cons i0 is =>
        rw [show splitNL ([] : List Nat) = [[]] from rfl] at h
        have := congrArg List.length h
        simp at this
    obtain ⟨hi1, hi2⟩ := hi
    subst hi1
    subst hi2
    simp [splitNL, hw]
  | cons b bs2 ih =>
    intro init lst h
    by_cases hb : b = 10
    · subst hb
      rw [splitNL_cons_10] at h
      cases init with
      | nil =>
        injection h with h1 h2
        exact absurd h2 (splitNL_ne_nil bs2)
      | cons i0 is =>
        injection h with h1 h2
        subst h1
        rw [List.cons_append, splitNL_cons_10, ih is lst h2]
        rfl
    · obtain ⟨h0, t0, hS⟩ := List.exists_cons_of_ne_nil (splitNL_ne_nil bs2)
      rw [splitNL_cons_not b bs2 hb h0 t0 hS] at h
      cases init with
      | nil =>
        injection h with h1 h2
        subst h2
        have hS1 : splitNL bs2 = [] ++ [h0] := by
          rw [hS]
          rfl
        have hrec := ih [] h0 hS1
        rw [List.cons_append, splitNL_cons_not b _ hb (h0 ++ [w]) [] hrec]
        rw [← h1]
        rfl
      | cons i0 is =>
        injection h with h1 h2
        subst h1
        have hS1 : splitNL bs2 = (h0 :: is) ++ [lst] := by
          rw [hS, h2]
          rfl
        have hrec := ih (h0 :: is) lst hS1
        have hrec2 : splitNL (bs2 ++ [w]) = h0 :: (is ++ [lst ++ [w]]) := by
          rw [hrec]
          rfl
        rw [List.cons_append, splitNL_cons_not b _ hb h0 (is ++ [lst ++ [w]]) hrec2]
        rfl

/-- The head of the trimmed non-blank view. -/
theorem trimmedLines_cons (x : List Nat) (xs : List (List Nat)) :
    trimmedLines (x :: xs) =
      if isBlank x then trimmedLines xs else trimBytes x :: trimmedLines xs := by
  unfold trimmedLines
  rw [List.filter_cons]
  by_cases hx : isBlank x = true
  · rw [hx]
    simp
  · rw [eq_false_of_ne_true hx]
    simp

/-- A leading whitespace byte does not change the trimmed non-blank lines. -/
theorem trimmedLines_splitNL_cons_ws (w : Nat) (bs : List Nat) (hw : isWSByte w = true) :
    trimmedLines (splitNL (w :: bs)) = trimmedLines (splitNL bs) := by
  by_cases hw10 : w = 10
  · subst hw10
    rw [splitNL_cons_10, trimmedLines_cons]
    rw [if_pos (show isBlank [] = true from rfl)]
  · obtain ⟨h, t, hS⟩ := List.exists_cons_of_ne_nil (splitNL_ne_nil bs)
    rw [splitNL_cons_not w bs hw10 h t hS, hS, trimmedLines_cons, trimmedLines_cons,
      isBlank_cons_ws w h hw, trimBytes_cons_ws w h hw]

/-- Dropping leading whitespace does not change the trimmed non-blank
lines. -/
theorem trimmedLines_splitNL_dropWhile (bs : List Nat) :
    trimmedLines (splitNL (bs.dropWhile isWSByte)) = trimmedLines (splitNL bs) := by
  induction bs with
  | nil => rfl
  | cons b bs2 ih =>
    rw [List.dropWhile_cons]
    by_cases hb : isWSByte b = true
    · rw [if_pos hb, ih, trimmedLines_splitNL_cons_ws b bs2 hb]
    · rw [if_neg hb]

/-- A trailing whitespace byte does not change the trimmed non-blank
lines. -/
theorem trimmedLines_splitNL_append_ws (w : Nat) (bs : List Nat) (hw : isWSByte w = true) :
    trimmedLines (splitNL (bs ++ [w])) = trimmedLines (splitNL bs) := by
  by_cases hw10 : w = 10
  · subst hw10
    rw [splitNL_append_10, trimmedLines_append]
    rw [show trimmedLines [[]] = [] from rfl]
    rw [List.append_nil]
  · obtain ⟨init, lst, hS⟩ := (List.eq_nil_or_concat (splitNL bs)).resolve_left (splitNL_ne_nil bs)
    rw [List.concat_eq_append] at hS
    rw [splitNL_append_not10 w hw10 bs init lst hS, hS, trimmedLines_append,
      trimmedLines_append, trimmedLines_cons, trimmedLines_cons,
      isBlank_append_ws w lst hw, trimBytes_append_ws w lst hw]

/-- Right-trimming the file does not change the trimmed non-blank lines. -/
theorem trimmedLines_splitNL_trimRight (bs : List Nat) :
    trimmedLines (splitNL (trimRight bs)) = trimmedLines (splitNL bs) := by
  induction bs using List.reverseRecOn with
  | nil => rfl
  | append_singleton bs2 w ih =>
    by_cases hw : isWSByte w = true
    · rw [trimRight_append_ws w bs2 hw, ih, trimmedLines_splitNL_append_ws w bs2 hw]
    · rw [trimRight_append_not_ws w bs2 (eq_false_of_ne_true hw)]

/-- Trimming the whole file does not change the trimmed non-blank lines of
its split. -/
theorem trimmedLines_splitNL_trimBytes (bs : List Nat) :
    trimmedLines (splitNL (trimBytes bs)) = trimmedLines (splitNL bs) := by
  unfold trimBytes
  rw [trimmedLines_splitNL_trimRight, trimmedLines_splitNL_dropWhile]

/-- The split segments and the readline lines have the same trimmed
non-blank view. -/
theorem trimmedLines_splitNL_eq_rlLines (bs : List Nat) :
    trimmedLines (splitNL bs) = trimmedLines (rlLines bs) := by
  rcases splitNL_eq_rlLines_or bs with h | h
  · rw [h, trimmedLines_append]
    rw [show trimmedLines [[]] = [] from rfl]
    rw [List.append_nil]
  · rw [h]

/-! ### Extraction through a whitespace-insensitive decoder -/

/-- A summary record is not a user/assistant record. -/
theorem isSummary_not_isUA (m : ConversationMessage) (h : isSummary m = true) :
    isUA m = false := by
  obtain ⟨t, payload⟩ := m
  cases t <;> simp_all [isUA, isSummary]

/-- For a decoder insensitive to surrounding whitespace, extraction factors
through the trimmed non-blank view of the lines. -/
theorem uaNB_trimmedLines (p : JsonDecode) (hp : ∀ l, p (trimBytes l) = p l) :
    ∀ lines : List (List Nat), uaNB p (trimmedLines lines) = uaNB p lines := by
  intro lines
  induction lines with
  | nil => rfl
  | cons l rest ih =>
    rw [trimmedLines_cons]
    by_cases hb : isBlank l = true
    · rw [if_pos hb, ih, uaNB_cons_blank p l rest hb]
    · have hb' : isBlank l = false := eq_false_of_ne_true hb
      rw [if_neg hb]
      have hbt : isBlank (trimBytes l) = false := by
        rw [isBlank_trimBytes]
        exact hb'
      cases hm : p l with
      | none =>
        have hmt : p (trimBytes l) = none := by rw [hp l, hm]
        rw [uaNB_cons_fail p (trimBytes l) (trimmedLines rest) hbt hmt,
          uaNB_cons_fail p l rest hb' hm, ih]
      | some m =>
        have hmt : p (trimBytes l) = some m := by rw [hp l, hm]
        rw [uaNB_cons_ok p (trimBytes l) (trimmedLines rest) m hbt hmt,
          uaNB_cons_ok p l rest m hb' hm, ih]

/-- For a whitespace-insensitive decoder that rejects the empty line, the
parse-everything extraction agrees with the blank-skipping extraction: a
whitespace-only line decodes like the empty line, to nothing. -/
theorem uaOf_eq_uaNB (p : JsonDecode) (hp : ∀ l, p (trimBytes l) = p l)
    (hnil : p [] = none) :
    ∀ lines : List (List Nat), uaOf p lines = uaNB p lines := by
  intro lines
  induction lines with
  | nil => rfl
  | cons l rest ih =>
    by_cases hb : isBlank l = true
    · have hm : p l = none := by
        rw [← hp l, trimBytes_blank l hb]
        exact hnil
      rw [uaNB_cons_blank p l rest hb]
      simp only [uaOf, List.filterMap_cons, hm]
      exact ih
    · have hb' : isBlank l = false := eq_false_of_ne_true hb
      cases hm : p l with
      | none =>
        rw [uaNB_cons_fail p l rest hb' hm]
        simp only [uaOf, List.filterMap_cons, hm]
        exact ih
      | some m =>
        rw [uaNB_cons_ok p l rest m hb' hm]
        simp only [uaOf, List.filterMap_cons, hm]
        by_cases hua : isUA m = true
        · simp only [hua, if_true]
          exact congrArg (fun x => m :: x) ih
        · simp only [hua, Bool.false_eq_true, if_false]
          exact ih

/-- Dropping empty lines does not change the blank-skipping extraction. -/
theorem uaNB_filter_nonempty (p : JsonDecode) :
    ∀ lines : List (List Nat),
      uaNB p (lines.filter (fun l => !l.isEmpty)) = uaNB p lines := by
  intro lines
  induction lines with
  | nil => rfl
  | cons l rest ih =>
    rw [List.filter_cons]
    cases l with
    | nil =>
      simp only [List.isEmpty_nil, Bool.not_true, Bool.false_eq_true, if_false]
      rw [ih, uaNB_cons_blank p [] rest rfl]
    | cons c cs =>
      simp only [List.isEmpty_cons, Bool.not_false, if_true]
      by_cases hb : isBlank (c :: cs) = true
      · rw [uaNB_cons_blank p (c :: cs) _ hb, uaNB_cons_blank p (c :: cs) rest hb, ih]
      · have hb' : isBlank (c :: cs) = false := eq_false_of_ne_true hb
        cases hm : p (c :: cs) with
        | none =>
          rw [uaNB_cons_fail p (c :: cs) _ hb' hm, uaNB_cons_fail p (c :: cs) rest hb' hm, ih]
        | some m =>
          rw [uaNB_cons_ok p (c :: cs) _ m hb' hm, uaNB_cons_ok p (c :: cs) rest m hb' hm, ih]

/-- The parse-everything extraction is the user/assistant filter of the
decoded records. -/
theorem uaOf_eq_filter_filterMap (p : JsonDecode) :
    ∀ lines : List (List Nat), uaOf p lines = (lines.filterMap p).filter isUA := by
  intro lines
  induction lines with
  | nil => rfl
  | cons l rest ih =>
    cases hm : p l with
    | none =>
      have h1 : uaOf p (l :: rest) = uaOf p rest := by
        simp [uaOf, List.filterMap_cons, hm]
      rw [h1, List.filterMap_cons, hm, ih]
    | some m =>
      by_cases hua : isUA m = true
      · have h1 : uaOf p (l :: rest) = m :: uaOf p rest := by
          simp [uaOf, List.filterMap_cons, hm, hua]
        rw [h1, List.filterMap_cons, hm, List.filter_cons]
        simp only [hua, if_true]
        rw [ih]
      · have h1 : uaOf p (l :: rest) = uaOf p rest := by
          simp [uaOf, List.filterMap_cons, hm, hua]
        rw [h1, List.filterMap_cons, hm, List.filter_cons]
        simp only [eq_false_of_ne_true hua, Bool.false_eq_true, if_false]
        exact ih

/-- The user/assistant subsequence of the full-file loop's result is the
parse-everything extraction over the loop's lines: the prepended summaries
are filtered away, the appended user/assistant records survive in order. -/
theorem convLoop_filter_isUA (p : JsonDecode) (lines : List (List Nat)) :
    (convLoop p lines []).filter isUA = uaOf p lines := by
  rw [convLoop_decomp, List.append_nil, List.filter_append]
  have h1 : ((lines.filterMap p).filter isSummary).reverse.filter isUA = [] := by
    rw [List.filter_eq_nil_iff]
    intro a ha
    have hmem := List.mem_filter.mp (List.mem_reverse.mp ha)
    rw [isSummary_not_isUA a hmem.2]
    simp
  have h2 : ((lines.filterMap p).filter isUA).filter isUA =
      (lines.filterMap p).filter isUA := by
    rw [List.filter_filter]
    exact List.filter_congr (fun a _ => Bool.and_self (isUA a))
  rw [h1, h2, List.nil_append, uaOf_eq_filter_filterMap]

/-- The user/assistant subsequence of the full-file reader equals the
blank-skipping extraction over the readline lines of the untrimmed file,
for every whitespace-insensitive decoder. -/
theorem conv_filter_isUA_eq_uaNB (p : JsonDecode) (content : List Nat)
    (hp : ∀ l, p (trimBytes l) = p l) (hnil : p [] = none) :
    (getConversation p (some content) false).filter isUA = uaNB p (rlLines content) := by
  have h0 : getConversation p (some content) false =
      convLoop p ((splitNL (trimBytes content)).filter (fun l => !l.isEmpty)) [] := rfl
  rw [h0, convLoop_filter_isUA, uaOf_eq_uaNB p hp hnil, uaNB_filter_nonempty,
    ← uaNB_trimmedLines p hp, trimmedLines_splitNL_trimBytes,
    trimmedLines_splitNL_eq_rlLines, uaNB_trimmedLines p hp]

/-! ### Claim C2: tail/full equivalence -/

/-- When the very first line of the read range is non-blank and
undecodable, every further call stalls at the same offset: the iteration
never reaches end of file. -/
theorem streamAll_stall (p : JsonDecode) (content : List Nat) (off : Nat)
    (hoff : off < content.length)
    (h0 : firstBad p (rlLines (content.drop off)) = some 0) :
    ∀ fuel, streamAll p content fuel off = none := by
  intro fuel
  induction fuel with
  | zero => rfl
  | succ n ih =>
    obtain ⟨hr, _, _⟩ := gcs_first_bad p content off 0 hoff h0
    simp only [streamAll]
    rw [if_neg (by omega), hr]
    dsimp only
    simp only [List.take_zero]
    rw [show sumBytes ([] : List (List Nat)) = 0 from rfl, Nat.add_zero, ih]
    rfl

/-- Soundness of the iteration: when it reaches end of file, it has either
started past the end (returning nothing) or consumed every line of the
range without meeting an undecodable line, returning exactly the
blank-skipping extraction of those lines. -/
theorem streamAll_sound (p : JsonDecode) (content : List Nat) :
    ∀ (fuel off : Nat) (ms : List ConversationMessage),
      streamAll p content fuel off = some ms →
      (content.length ≤ off ∧ ms = []) ∨
      (off < content.length ∧ firstBad p (rlLines (content.drop off)) = none ∧
        ms = uaNB p (rlLines (content.drop off))) := by
  intro fuel
  induction fuel with
  | zero =>
    intro off ms h
    exact absurd h (by simp [streamAll])
  | succ n ih =>
    intro off ms h
    simp only [streamAll] at h
    by_cases hoff : content.length ≤ off
    · rw [if_pos hoff] at h
      exact Or.inl ⟨hoff, (Option.some_inj.mp h).symm⟩
    · rw [if_neg hoff] at h
      push_neg at hoff
      cases hfb : firstBad p (rlLines (content.drop off)) with
      | none =>
        rw [gcs_no_bad p content off hoff hfb] at h
        dsimp only at h
        cases hrec : streamAll p content n content.length with
        | none =>
          rw [hrec] at h
          simp at h
        | some tail =>
          rw [hrec] at h
          simp only [Option.map_some'] at h
          have htail : tail = [] := by
            rcases ih content.length tail hrec with ⟨_, ht⟩ | ⟨hlt, _, _⟩
            · exact ht
            · omega
          subst htail
          refine Or.inr ⟨hoff, rfl, ?_⟩
          rw [← Option.some_inj.mp h, List.append_nil]
      | some k =>
        obtain ⟨hr, hlt, hre⟩ := gcs_first_bad p content off k hoff hfb
        obtain ⟨_, bad, rest2, hdk, hbb, hbf⟩ :=
          processLines_first_bad p (rlLines (content.drop off)) k hfb
        rw [hr] at h
        dsimp only at h
        have hfb2 : firstBad p (rlLines (content.drop
            (off + sumBytes ((rlLines (content.drop off)).take k)))) = some 0 := by
          rw [hre, hdk]
          exact firstBad_cons_fail p bad rest2 hbb hbf
        rw [streamAll_stall p content _ hlt hfb2 n] at h
        simp at h

/-- Claim C2: for a decoder insensitive to surrounding whitespace that
rejects the empty line (as `JSON.parse` is and does), concatenating the
message batches of successive `getConversationStream` calls from offset 0,
feeding each `nextOffset` into the next call until end of file, yields
exactly the user/assistant subsequence of `getConversation` on the same
file, in the same relative order. -/
theorem c2_tail_full_equivalence (p : JsonDecode) (content : List Nat)
    (fuel : Nat) (ms : List ConversationMessage)
    (hp : ∀ l, p (trimBytes l) = p l) (hnil : p [] = none)
    (hrun : streamAll p content fuel 0 = some ms) :
    ms = (getConversation p (some content) false).filter isUA := by
  rcases streamAll_sound p content fuel 0 ms hrun with ⟨hle, hms⟩ | ⟨_, hfb, hms⟩
  · have hc : content = [] := List.eq_nil_of_length_eq_zero (Nat.le_zero.mp hle)
    subst hc
    subst hms
    rfl
  · rw [conv_filter_isUA_eq_uaNB p content hp hnil, hms, List.drop_zero]

/-- The tail/full equivalence run on a concrete two-line file with a
whitespace-insensitive decoder: the iteration reaches end of file in one
read and returns the same records the full-file reader keeps. -/
theorem c2_witness :
    streamAll uniformDecode [65, 10, 32, 10, 66] 2 0 =
      some [⟨.user, 0⟩, ⟨.user, 0⟩] ∧
    ([⟨.user, 0⟩, ⟨.user, 0⟩] : List ConversationMessage) =
      (getConversation uniformDecode (some [65, 10, 32, 10, 66]) false).filter isUA :=
  ⟨by decide,
    c2_tail_full_equivalence uniformDecode [65, 10, 32, 10, 66] 2 [⟨.user, 0⟩, ⟨.user, 0⟩]
      (fun l => by
        unfold uniformDecode
        rw [isBlank_trimBytes])
      rfl (by decide)⟩

end ClaudeRun
